import Mathlib

/-!
# Verification of the ChessAI steganographic codec

A shallow embedding of the PGN steganography core of this repository:

* `src/backend/src/cryptography/util.ts` — `toBinaryString`, `calculateChecksum`,
  `getCharacterFixes`, `getPgnGames` (the lenient splitter);
* `src/backend/src/cryptography/encode.ts` — `encode` (version 1.3, with the
  special handling of a final 'i' byte, the retry loop and the fallback move);
* the decoder (`decode`) that replays the recorded games, reassembles the bit
  stream, truncates to the declared file size and applies the character-fix
  passes.

The chess rules engine (chess.js) is an external dependency, not part of this
repository; following the specification it is modelled as an abstract
`Oracle`: a deterministic supplier of the ordered legal-move list, the state
transition, and the draw tests.  Machine integers are modelled as `Nat`/`Int`
with explicit reduction modulo `2^32` where the JavaScript source relies on
32-bit semantics.  JavaScript strings that only ever hold bytes read from or
written to the output file are modelled as `List Nat` of byte values; this is
exact for the ASCII data handled by the character-fix passes, which are only
reached under a printable-ASCII guard or exercised here on ASCII content.
All definitions are executable; loops that are `while`-loops in the source
take an explicit fuel argument.
-/

/-- Bit strings are lists of Booleans, most significant bit first
(`true` = the character '1' of the JavaScript binary strings). -/
abbrev Bits := List Bool

/-- The binary digits of `n`, MSB first, as produced by JavaScript
`Number.prototype.toString(2)` (so `0` renders as "0").  Structural fuel
recursion; `fuel = n + 1` always suffices. -/
def natToBitsGo : Nat → Nat → List Bool
  | 0, _ => []
  | f + 1, n => if n < 2 then [n == 1] else natToBitsGo f (n / 2) ++ [n % 2 == 1]

def natToBits (n : Nat) : List Bool := natToBitsGo (n + 1) n

/-- `toBinaryString` from `util.ts`: the binary representation of `num`,
left-padded with '0' to `bits` characters (never truncated). -/
def toBinaryString (num bits : Nat) : Bits :=
  let b := natToBits num
  List.replicate (bits - b.length) false ++ b

/-- `parseInt(s, 2)` on a string of '0'/'1' characters. -/
def bitsVal (l : Bits) : Nat :=
  l.foldl (fun a b => 2 * a + (if b then 1 else 0)) 0

/-- `Math.floor(Math.log2(n))` for a positive count of legal moves (fuel
recursion so that it reduces in the kernel; `fuel = n` suffices). -/
def log2Go : Nat → Nat → Nat
  | 0, _ => 0
  | f + 1, n => if n < 2 then 0 else log2Go f (n / 2) + 1

def jsLog2 (n : Nat) : Nat := log2Go n n

theorem natToBitsGo_length_le :
    ∀ f i L, i < f → 0 < L → i < 2 ^ L → (natToBitsGo f i).length ≤ L := by
  intro f
  induction f with
  | zero => intro i L h; omega
  | succ f ih =>
    intro i L hif hL hiL
    simp only [natToBitsGo]
    by_cases h2 : i < 2
    · simp only [h2, if_true, List.length_singleton]
      omega
    · have hL2 : 2 ≤ L := by
        by_contra hc
        have hL1 : L = 1 := by omega
        rw [hL1] at hiL
        simp at hiL
        omega
      have h2L : 2 ^ L = 2 * 2 ^ (L - 1) := by
        conv_lhs => rw [show L = 1 + (L - 1) by omega]
        rw [pow_add, pow_one]
      have hrec : (natToBitsGo f (i / 2)).length ≤ L - 1 :=
        ih (i / 2) (L - 1) (by omega) (by omega) (by omega)
      simp only [h2, if_false, List.length_append, List.length_singleton]
      omega

theorem natToBits_length_le {i L : Nat} (hL : 0 < L) (hi : i < 2 ^ L) :
    (natToBits i).length ≤ L :=
  natToBitsGo_length_le (i + 1) i L (Nat.lt_succ_self i) hL hi

theorem toBinaryString_length {i L : Nat} (hL : 0 < L) (hi : i < 2 ^ L) :
    (toBinaryString i L).length = L := by
  have h := natToBits_length_le hL hi
  simp only [toBinaryString, List.length_append, List.length_replicate]
  omega

/-- Hexadecimal digit characters, lowercase, as JavaScript `toString(16)`. -/
def hexDigit (n : Nat) : Char :=
  if n < 10 then Char.ofNat (48 + n) else Char.ofNat (87 + n)

/-- The hexadecimal digits of `n`, MSB first (fuel recursion; for any value
below `16 ^ fuel` with `fuel ≥ 1` this is exactly `n.toString(16)`). -/
def hexChars : Nat → Nat → List Char
  | 0, _ => []
  | fuel + 1, n => if n < 16 then [hexDigit n] else hexChars fuel (n / 16) ++ [hexDigit (n % 16)]

theorem hexChars_length_le : ∀ fuel n, (hexChars fuel n).length ≤ max 1 fuel := by
  intro fuel
  induction fuel with
  | zero => intro n; simp [hexChars]
  | succ fuel ih =>
    intro n
    simp only [hexChars]
    by_cases h : n < 16
    · simp only [h, if_true, List.length_singleton]
      exact le_max_left 1 (fuel + 1)
    · have hrec := ih (n / 16)
      simp only [h, if_false, List.length_append, List.length_singleton]
      rcases Nat.eq_zero_or_pos fuel with hf | hf
      · subst hf
        simp only [hexChars, List.length_nil] at hrec ⊢
        omega
      · have h1 : max 1 fuel = fuel := by omega
        have h2 : max 1 (fuel + 1) = fuel + 1 := by omega
        omega

/-- `.padStart(8, '0')` on a character list. -/
def padStart8 (l : List Char) : List Char :=
  List.replicate (8 - l.length) '0' ++ l

/-- Reinterpret an integer as the unsigned 32-bit value with the same low
32 bits (JavaScript `x >>> 0`). -/
def toUint32 (i : Int) : Nat := (i % 4294967296).toNat

/-- Reinterpret an integer as the signed 32-bit value with the same low
32 bits (the implicit `ToInt32` of the JavaScript bitwise operators). -/
def toInt32 (i : Int) : Int :=
  let u := i % 4294967296
  if u < 2147483648 then u else u - 4294967296

/-- JavaScript `a ^ b` (32-bit signed xor). -/
def jsXor (a b : Int) : Int :=
  toInt32 (Int.ofNat (Nat.xor (toUint32 a) (toUint32 b)))

/-- JavaScript `Math.imul(a, b)` (32-bit signed multiply). -/
def jsImul (a b : Int) : Int := toInt32 (a * b)

/-- `calculateChecksum` from `util.ts`: FNV-1a over the buffer with JavaScript
32-bit arithmetic (`^=` and `Math.imul`), rendered through
`(hash >>> 0).toString(16).padStart(8, '0')`. -/
def calculateChecksum (buffer : List Nat) : String :=
  let hash := buffer.foldl (fun h b => jsImul (jsXor h (Int.ofNat b)) 16777619) (2166136261 : Int)
  String.mk (padStart8 (hexChars 8 (toUint32 hash)))

/-- The FNV-1a hash as the specification words it: offset basis 2166136261,
xor each byte in, multiply by the prime 16777619, truncate to 32 bits. -/
def fnv1aSpec (l : List Nat) : Nat :=
  l.foldl (fun h b => Nat.xor h b * 16777619 % 4294967296) 2166136261

theorem toUint32_lt (i : Int) : toUint32 i < 4294967296 := by
  simp only [toUint32]
  have h1 : 0 ≤ i % 4294967296 := Int.emod_nonneg i (by norm_num)
  have h2 : i % 4294967296 < 4294967296 := Int.emod_lt_of_pos i (by norm_num)
  omega

theorem toUint32_toInt32 (i : Int) : toUint32 (toInt32 i) = toUint32 i := by
  simp only [toUint32, toInt32]
  by_cases h : i % 4294967296 < 2147483648
  · simp only [h, if_true]
    rw [Int.emod_emod_of_dvd i dvd_rfl]
  · simp only [h, if_false]
    rw [Int.sub_emod, Int.emod_emod_of_dvd i dvd_rfl, Int.emod_self, sub_zero,
      Int.emod_emod_of_dvd i dvd_rfl]

theorem toUint32_natCast {m : Nat} (h : m < 4294967296) : toUint32 (Int.ofNat m) = m := by
  simp only [toUint32, Int.ofNat_eq_coe]
  rw [Int.emod_eq_of_lt (Int.natCast_nonneg m) (by exact_mod_cast h)]
  simp

theorem emod_toUint32 (i : Int) : i % 4294967296 = Int.ofNat (toUint32 i) := by
  simp only [toUint32]
  rw [Int.ofNat_eq_coe, Int.toNat_of_nonneg (Int.emod_nonneg i (by norm_num))]

theorem toUint32_jsXor (h : Int) {b : Nat} (hb : b < 256) :
    toUint32 (jsXor h (Int.ofNat b)) = Nat.xor (toUint32 h) b := by
  have hu : toUint32 h < 4294967296 := toUint32_lt h
  have hb32 : toUint32 (Int.ofNat b) = b := toUint32_natCast (by omega)
  have hxor : Nat.xor (toUint32 h) b < 4294967296 := by
    have h32 : (4294967296 : Nat) = 2 ^ 32 := by norm_num
    rw [h32] at hu ⊢
    exact Nat.xor_lt_two_pow hu (by omega)
  simp only [jsXor, hb32]
  rw [toUint32_toInt32, toUint32_natCast hxor]

theorem toUint32_jsImul_prime (a : Int) :
    toUint32 (jsImul a 16777619) = toUint32 a * 16777619 % 4294967296 := by
  simp only [jsImul]
  rw [toUint32_toInt32]
  simp only [toUint32]
  rw [Int.mul_emod, emod_toUint32 a]
  simp only [Int.ofNat_eq_coe]
  omega

theorem checksum_loop_eq :
    ∀ (l : List Nat) (h : Int), (∀ b ∈ l, b < 256) →
      toUint32 (l.foldl (fun h b => jsImul (jsXor h (Int.ofNat b)) 16777619) h) =
        l.foldl (fun h b => Nat.xor h b * 16777619 % 4294967296) (toUint32 h) := by
  intro l
  induction l with
  | nil => intro h _; rfl
  | cons b rest ih =>
    intro h hb
    simp only [List.foldl_cons]
    rw [ih _ (fun x hx => hb x (List.mem_cons_of_mem b hx))]
    rw [toUint32_jsImul_prime, toUint32_jsXor h (hb b (List.mem_cons_self b rest))]

/-- The external chess-rules collaborator (`chess.js`), abstracted per the
specification: the canonical initial state, the deterministic stably-ordered
legal-move list, the state transition, and the two draw signals the encoder
consults (`isInsufficientMaterial`, `isDraw`). -/
structure Oracle (σ α : Type) where
  init : σ
  legalMoves : σ → List α
  applyMove : σ → α → σ
  isDraw : σ → Bool
  isInsufficientMaterial : σ → Bool

/-- The PGN header tags the codec reads and writes (`FileSize`, `Checksum`,
`EncodingVersion`, `GameCount`, `GameIndex`, `BitPosition`); the purely
decorative tags (Event, Site, Date, Round, players) carry no information for
the codec and are not modelled.  Numeric tags are stored already parsed. -/
structure Headers where
  fileSize : Option Nat
  checksum : Option String
  encodingVersion : Option String
  gameCount : Option Nat
  gameIndex : Option Nat
  bitPosition : Option Nat
deriving DecidableEq

/-- One recorded game: its header tags and its move list (what `chess.js`
serializes to a PGN block and recovers from it). -/
structure Game (α : Type) where
  headers : Headers
  moves : List α
deriving DecidableEq

/-- The mutable state of the while-loop of `encode`. -/
structure EncSt (σ α : Type) where
  fileBitIndex : Nat
  board : σ
  history : List α
  curHeaders : Headers
  outputPgns : List (Game α)
  retryCount : Nat
  processingSpecialI : Bool
deriving DecidableEq

/-- Outcome of one iteration of the while-loop of `encode` body. -/
inductive Step (σ α : Type) where
  | cont (st : EncSt σ α)
  | brk (st : EncSt σ α)
  | fail
deriving DecidableEq

def Step.state {σ α : Type} : Step σ α → Option (EncSt σ α)
  | .cont st => some st
  | .brk st => some st
  | .fail => none

/-- The whole file as one MSB-first bit string (`entireFileBinary`). -/
def bytesToBits (fileBytes : List Nat) : Bits :=
  (fileBytes.map (fun b => toBinaryString b 8)).flatten

/-- `Math.ceil(fileBitsCount / (80 * 3))`: the informational game-count
estimate. -/
def encGameCount (total : Nat) : Nat := (total + 239) / 240

/-- The header block `encode` installs on the first game. -/
def firstHeaders (fileBytes : List Nat) : Headers :=
  let gc := encGameCount (8 * fileBytes.length)
  { fileSize := some fileBytes.length
    checksum := some (calculateChecksum fileBytes)
    encodingVersion := some "1.3"
    gameCount := if 1 < gc then some gc else none
    gameIndex := if 1 < gc then some 1 else none
    bitPosition := none }

/-- The header block `encode` installs on a continuation game: `FileSize`,
`Checksum` and `EncodingVersion` always; `GameCount`, `GameIndex` (number of
games already emitted plus one) and `BitPosition` only when the game-count
estimate exceeds one. -/
def contHeaders (fileBytes : List Nat) (pushedLen bitIdx : Nat) : Headers :=
  let gc := encGameCount (8 * fileBytes.length)
  { fileSize := some fileBytes.length
    checksum := some (calculateChecksum fileBytes)
    encodingVersion := some "1.3"
    gameCount := if 1 < gc then some gc else none
    gameIndex := if 1 < gc then some (pushedLen + 1) else none
    bitPosition := if 1 < gc then some bitIdx else none }

/-- The `processingSpecialI` update at the top of the loop body: the flag is
set (and never cleared) once the cursor is within the last 8 bits and the
byte under the cursor is 'i' (ASCII 105). -/
def encPsi (fileBytes : List Nat) (st : EncSt σ α) : Bool :=
  st.processingSpecialI ||
    (decide (8 * fileBytes.length ≤ st.fileBitIndex + 8) &&
      fileBytes.getD (st.fileBitIndex / 8) 0 == 105)

/-- `maxBinaryLength`: `min(maxMoveBits, remainingBits)`, overridden to a full
byte on the special final-'i' path. -/
def encL (psi : Bool) (bitIdx total k : Nat) : Nat :=
  let remaining := total - bitIdx
  if psi && bitIdx % 8 == 0 && decide (8 ≤ remaining) && decide (8 ≤ k) then 8
  else min k remaining

/-- Insertion into the `moveBits` JavaScript object: existing keys are
overwritten in place, new keys are appended (JS objects preserve insertion
order for string keys). -/
def jsInsert [DecidableEq α] (m : List (α × Bits)) (k : α) (v : Bits) : List (α × Bits) :=
  if m.any (fun p => p.1 = k) then
    m.map (fun p => if p.1 = k then (p.1, v) else p)
  else m ++ [(k, v)]

/-- The `moveBits` map: every legal move whose index is below
`2 ^ maxBinaryLength`, keyed by the move, valued by the index rendered with
`toBinaryString(index, maxBinaryLength)`. -/
def buildMoveBits [DecidableEq α] (legal : List α) (L : Nat) : List (α × Bits) :=
  legal.enum.foldl
    (fun m p => if p.1 < 2 ^ L then jsInsert m p.2 (toBinaryString p.1 L) else m) []

/-- The fallback selection: the entry whose bit string has strictly the most
'0' characters, first wins ties (`bestZeroCount` starts at -1, so any entry
beats the initial state). -/
def pickBestZero (m : List (α × Bits)) : Option (α × Bits) :=
  (m.foldl
    (fun acc p =>
      let zc : Int := Int.ofNat (p.2.count false)
      if acc.1 < zc then (zc, some p) else acc)
    ((-1 : Int), (none : Option (α × Bits)))).2

/-- Outcome of the move-selection phase of one encode step. -/
inductive SelRes (α : Type) where
  | sel (a : α) (bits : Bits) (rex : Nat)
  | retryNext (r1 : Nat)
  | fail
deriving DecidableEq

/-- The move-selection phase of `encode`: exact match on the chunk; then (on
the special-'i' path) a match on a strict prefix of the chunk; then, while
fewer than five retries have happened, a match against the chunk shortened by
one bit (incrementing the retry counter); finally the zero-heavy fallback
move.  `rex` is the value of `retryCount` at execution time, which decides
whether a reduced bit count is credited. -/
def selectEntry [DecidableEq α] (moveBits : List (α × Bits)) (chunk : Bits)
    (L : Nat) (psi : Bool) (r : Nat) : SelRes α :=
  match moveBits.find? (fun p => p.2 == chunk) with
  | some p => .sel p.1 p.2 r
  | none =>
    match (if psi then moveBits.find? (fun p => p.2.isPrefixOf chunk) else none) with
    | some p => .sel p.1 p.2 r
    | none =>
      if r < 5 then
        if 0 < L - 1 then
          match moveBits.find? (fun p => p.2 == chunk.take (L - 1)) with
          | some p => .sel p.1 p.2 (r + 1)
          | none => .retryNext (r + 1)
        else .retryNext (r + 1)
      else
        match pickBestZero moveBits with
        | some p => .sel p.1 p.2 r
        | none => .fail

/-- Executing a selected move: apply it, credit `bitsEncoded` bits (one less
than `maxBinaryLength` when a retry preceded the selection and
`maxBinaryLength > 1`), and close the game when the position before the move
had at most one legal move, the oracle reports insufficient material or a
draw, the payload is exhausted, or the game has reached 80 recorded moves. -/
def execMove [DecidableEq α] (O : Oracle σ α) (fileBytes : List Nat)
    (st : EncSt σ α) (n L : Nat) (a : α) (r : Nat) (psi : Bool) : Step σ α :=
  let total := 8 * fileBytes.length
  let board1 := O.applyMove st.board a
  let history1 := st.history ++ [a]
  let bitsEncoded := if 0 < r ∧ 1 < L then L - 1 else L
  let bitIdx1 := st.fileBitIndex + bitsEncoded
  let eof := decide (total ≤ bitIdx1)
  if n ≤ 1 ∨ O.isInsufficientMaterial board1 = true ∨ O.isDraw board1 = true ∨
      eof = true ∨ 80 ≤ history1.length then
    let pushed := st.outputPgns ++ [⟨st.curHeaders, history1⟩]
    if eof then
      .brk { fileBitIndex := bitIdx1, board := board1, history := history1,
             curHeaders := st.curHeaders, outputPgns := pushed, retryCount := 0,
             processingSpecialI := psi }
    else
      .cont { fileBitIndex := bitIdx1, board := O.init, history := [],
              curHeaders := contHeaders fileBytes pushed.length bitIdx1,
              outputPgns := pushed, retryCount := 0, processingSpecialI := psi }
  else
    .cont { fileBitIndex := bitIdx1, board := board1, history := history1,
            curHeaders := st.curHeaders, outputPgns := st.outputPgns,
            retryCount := 0, processingSpecialI := psi }

/-- One iteration of the while-loop of `encode` (entered with
`fileBitIndex < fileBitsCount`): game over → emit and reset; a single legal
move → play it for free; otherwise select a move for the next payload chunk
and execute it.  A failed selection with retries left just repeats the loop
with the retry counter bumped. -/
def encodeStep [DecidableEq α] (O : Oracle σ α) (fileBytes : List Nat)
    (st : EncSt σ α) : Step σ α :=
  let total := 8 * fileBytes.length
  let psi := encPsi fileBytes st
  match O.legalMoves st.board with
  | [] =>
    .cont { fileBitIndex := st.fileBitIndex, board := O.init, history := [],
            curHeaders := contHeaders fileBytes (st.outputPgns.length + 1) st.fileBitIndex,
            outputPgns := st.outputPgns ++ [⟨st.curHeaders, st.history⟩],
            retryCount := 0, processingSpecialI := psi }
  | m0 :: rest =>
    let legal := m0 :: rest
    let n := legal.length
    let k := jsLog2 n
    if k = 0 then
      .cont { st with
                board := O.applyMove st.board m0
                history := st.history ++ [m0]
                processingSpecialI := psi }
    else
      let L := encL psi st.fileBitIndex total k
      let moveBits := buildMoveBits legal L
      let chunk := ((bytesToBits fileBytes).drop st.fileBitIndex).take L
      match selectEntry moveBits chunk L psi st.retryCount with
      | .sel a _ rex =>
        execMove O fileBytes { st with processingSpecialI := psi } n L a rex psi
      | .retryNext r1 =>
        .cont { st with retryCount := r1, processingSpecialI := psi }
      | .fail => .fail

/-- the while-loop of `encode`, with fuel.  The loop runs while
`fileBitIndex < fileBitsCount`; a `.brk` step is the `break` after the
end-of-file push. -/
def encodeLoop [DecidableEq α] (O : Oracle σ α) (fileBytes : List Nat) :
    Nat → EncSt σ α → Option (EncSt σ α)
  | 0, _ => none
  | fuel + 1, st =>
    if st.fileBitIndex < 8 * fileBytes.length then
      match encodeStep O fileBytes st with
      | .cont st1 => encodeLoop O fileBytes fuel st1
      | .brk st1 => some st1
      | .fail => none
  else some st

/-- `encode` from `encode.ts`: rejects an empty file, runs the loop from the
initial position with the version-1.3 header block, and finally pushes the
game still on the board once more if its history is non-empty (after the end-of-file
`break` the board is not reset, so the final game is emitted twice). -/
def encode [DecidableEq α] (O : Oracle σ α) (fileBytes : List Nat) (fuel : Nat) :
    Option (List (Game α)) :=
  if fileBytes.isEmpty then none
  else
    let st0 : EncSt σ α :=
      { fileBitIndex := 0, board := O.init, history := [],
        curHeaders := firstHeaders fileBytes, outputPgns := [], retryCount := 0,
        processingSpecialI := false }
    (encodeLoop O fileBytes fuel st0).map
      (fun st =>
        if st.history.isEmpty then st.outputPgns
        else st.outputPgns ++ [⟨st.curHeaders, st.history⟩])

/-- One block of the transcript as the decoder sees it: either `chess.js`
`loadPgn` succeeds and yields a game (headers and move list), or it throws
and the decoder falls back to treating the text of the block as raw data.  The
verdict of the external parser is part of the input, since `chess.js` is not part
of this repository. -/
inductive DecSeg (α : Type) where
  | parsed (g : Game α)
  | raw (text : String)
deriving DecidableEq

/-- The metadata the decoder extracts from the headers of the first block (all
`null` when the first block does not parse). -/
structure DecMeta where
  originalFileSize : Option Nat
  fileChecksum : Option String
  encodingVersion : Option String
  expectedGameCount : Option Nat
deriving DecidableEq

def extractMeta : List (DecSeg α) → DecMeta
  | .parsed g :: _ =>
    ⟨g.headers.fileSize, g.headers.checksum, g.headers.encodingVersion, g.headers.gameCount⟩
  | _ => ⟨none, none, none, none⟩

/-- `mayHaveFinalIChar`: a declared positive file size and encoding version
exactly "1.3". -/
def mayHaveFinalI (m : DecMeta) : Bool :=
  match m.originalFileSize with
  | some s => decide (0 < s) && m.encodingVersion == some "1.3"
  | none => false

def segGameIndex : DecSeg α → Option Nat
  | .parsed g => g.headers.gameIndex
  | .raw _ => none

/-- The game-reordering pass: only when the first block declares a
`GameCount` above one, and only when every block parses and carries a
`GameIndex`, the blocks are stably sorted by that index (JavaScript
`Array.prototype.sort` with the comparator `a.index - b.index`); otherwise the
transcript order is kept. -/
def sortGames (egc : Option Nat) (games : List (DecSeg α)) : List (DecSeg α) :=
  if 1 < egc.getD 0 then
    if games.all (fun s => (segGameIndex s).isSome) then
      games.mergeSort (fun a b => (segGameIndex a).getD 0 ≤ (segGameIndex b).getD 0)
    else games
  else games

/-- The mutable state of the decoder: the bytes written to the output file so
far, the bit accumulator (`outputData`), every bit ever decoded
(`allDecodedBits`), and the `totalBytesWritten` counter. -/
structure DecLoop where
  file : List Nat
  outputData : Bits
  allBits : Bits
  totalBytes : Nat
deriving DecidableEq

/-- Split a bit string into bytes, eight bits at a time, dropping a trailing
group of fewer than eight bits. -/
def bytesOfBits : Bits → List Nat
  | b0 :: b1 :: b2 :: b3 :: b4 :: b5 :: b6 :: b7 :: rest =>
    bitsVal [b0, b1, b2, b3, b4, b5, b6, b7] :: bytesOfBits rest
  | _ => []

/-- a-z, A-Z, 0-9 (the characters *kept* by the fallback parser's
`replace(/[^a-zA-Z0-9\s]/g, ' ')`). -/
def isAsciiAlnum (c : Char) : Bool :=
  (97 ≤ c.toNat && c.toNat ≤ 122) || (65 ≤ c.toNat && c.toNat ≤ 90) ||
    (48 ≤ c.toNat && c.toNat ≤ 57)

/-- The maximal runs of alphanumeric characters of the text: everything else
is (or is replaced by) whitespace, and the text is then split on whitespace
runs with empty chunks dropped. -/
def alnumTokens : Nat → List Char → List (List Char)
  | 0, _ => []
  | _ + 1, [] => []
  | fuel + 1, c :: rest =>
    if isAsciiAlnum c then
      ((c :: rest).takeWhile isAsciiAlnum) :: alnumTokens fuel ((c :: rest).dropWhile isAsciiAlnum)
    else alnumTokens fuel rest

/-- A chunk of at least eight characters yields one byte per full group of
eight characters: each character contributes the bit `charCode % 2`. -/
def chunkBytes : List Char → List Nat
  | c0 :: c1 :: c2 :: c3 :: c4 :: c5 :: c6 :: c7 :: rest =>
    bitsVal ([c0, c1, c2, c3, c4, c5, c6, c7].map (fun c => c.toNat % 2 == 1)) :: chunkBytes rest
  | _ => []

/-- The fallback extraction applied to a block whose PGN fails to load:
non-alphanumeric characters become spaces, the text is split on whitespace,
and every chunk of length at least eight contributes one byte per group of
eight characters (bit = character code mod 2). -/
def fallbackBytes (text : String) : List Nat :=
  ((alnumTokens (text.toList.length + 1) text.toList).filter (fun c => 8 ≤ c.length)).map
    chunkBytes |>.flatten

/-- Outcome of replaying one recorded move. -/
inductive ReplayRes (σ : Type) where
  | cont (b : σ) (st : DecLoop)
  | brk (st : DecLoop)
deriving DecidableEq

/-- Replaying one recorded move of a game: find its index in the current
legal-move list (a missing move throws on execution and aborts the rest of
the game); a forced move emits nothing; otherwise emit the index as a
`floor(log2 n)`-bit string — `padStart` never truncates, so an index at or
above `2 ^ k` emits more than `k` bits — and flush every complete byte,
stopping once `totalBytesWritten` reaches the declared file size. -/
def replayStep (O : Oracle σ α) [DecidableEq α] (size? : Option Nat) (b : σ)
    (st : DecLoop) (mv : α) : ReplayRes σ :=
  match O.legalMoves b with
  | [] => .brk st
  | m0 :: rest =>
    let legal := m0 :: rest
    match legal.findIdx? (fun x => x = mv) with
    | none => .brk st
    | some i =>
      if legal.length = 1 then .cont (O.applyMove b mv) st
      else
        let k := jsLog2 legal.length
        let bits := toBinaryString i k
        let b1 := O.applyMove b mv
        let od := st.outputData ++ bits
        let ab := st.allBits ++ bits
        if 8 ≤ od.length then
          let cb := od.length / 8
          let newBytes := bytesOfBits (od.take (cb * 8))
          let st1 : DecLoop :=
            ⟨st.file ++ newBytes, od.drop (cb * 8), ab, st.totalBytes + cb⟩
          match size? with
          | some s => if s ≤ st1.totalBytes then .brk st1 else .cont b1 st1
          | none => .cont b1 st1
        else .cont b1 ⟨st.file, od, ab, st.totalBytes⟩

def replayGo (O : Oracle σ α) [DecidableEq α] (size? : Option Nat) :
    List α → σ → DecLoop → DecLoop
  | [], _, st => st
  | mv :: rest, b, st =>
    match replayStep O size? b st mv with
    | .cont b1 st1 => replayGo O size? rest b1 st1
    | .brk st1 => st1

/-- The loop over the (sorted) blocks.  A block that fails to load runs the
fallback extractor and appends its bytes to the file, skipping the
file-size check; a parsed block with no moves is skipped; a parsed block is
replayed from the initial position, and afterwards the loop stops early once
the declared file size has been reached. -/
def gamesLoop (O : Oracle σ α) [DecidableEq α] (m : DecMeta) :
    List (DecSeg α) → DecLoop → DecLoop
  | [], st => st
  | seg :: rest, st =>
    match seg with
    | .raw t =>
      let bs := fallbackBytes t
      gamesLoop O m rest ⟨st.file ++ bs, st.outputData, st.allBits, st.totalBytes + bs.length⟩
    | .parsed g =>
      if g.moves.isEmpty then gamesLoop O m rest st
      else
        let st1 := replayGo O m.originalFileSize g.moves O.init st
        match m.originalFileSize with
        | some s => if s ≤ st1.totalBytes then st1 else gamesLoop O m rest st1
        | none => gamesLoop O m rest st1

/-- How many of the first `min(length, 8)` bits agree with the bit pattern of
'i' (01101001). -/
def countIMatches (l : Bits) : Nat :=
  let target := [false, true, true, false, true, false, false, true]
  ((List.range (min l.length 8)).filter
    (fun i => l.getD i false == target.getD i false)).length

/-- The "process any remaining bits" block at the end of `decode`: when bits
are left in the accumulator and the declared size is not yet reached, possibly
re-read bits from the full decoded stream, possibly rewrite a near-'i' tail to
exactly 'i', trim to the bits still needed, zero-pad to a byte boundary and
append the bytes. -/
def remainingBlock (m : DecMeta) (st : DecLoop) : DecLoop :=
  if st.outputData.isEmpty then st
  else
    match m.originalFileSize with
    | none =>
      let bitsToUse := st.outputData
      let padded :=
        if bitsToUse.length % 8 = 0 then bitsToUse
        else bitsToUse ++ List.replicate (8 - bitsToUse.length % 8) false
      let bs := bytesOfBits padded
      ⟨st.file ++ bs, st.outputData, st.allBits, st.totalBytes + bs.length⟩
    | some s =>
      if s ≤ st.totalBytes then st
      else
        let remainingBytes := s - st.totalBytes
        let needed := remainingBytes * 8
        let bitsToUse1 :=
          if st.outputData.length < needed then
            if st.outputData.length < st.allBits.length then
              if st.totalBytes * 8 < st.allBits.length then
                let rem := st.allBits.drop (st.totalBytes * 8)
                if needed ≤ rem.length then rem.take needed else rem
              else st.outputData
            else st.outputData
          else st.outputData
        let bitsToUse2 :=
          if remainingBytes = 1 ∧ ¬bitsToUse1.isEmpty ∧ mayHaveFinalI m = true then
            if 6 ≤ bitsToUse1.length then
              if 6 ≤ countIMatches bitsToUse1 then
                [false, true, true, false, true, false, false, true]
              else bitsToUse1
            else bitsToUse1
          else bitsToUse1
        let bitsNeeded := s * 8 - st.totalBytes * 8
        let bitsToUse3 :=
          if bitsNeeded < bitsToUse2.length then bitsToUse2.take bitsNeeded else bitsToUse2
        let bitsToUse4 :=
          if bitsToUse3.length % 8 = 0 then bitsToUse3
          else bitsToUse3 ++ List.replicate (8 - bitsToUse3.length % 8) false
        let bs := bytesOfBits bitsToUse4
        ⟨st.file ++ bs, st.outputData, st.allBits, st.totalBytes + bs.length⟩

/-- `fs.ftruncateSync(fd, size)`: cut the file to `size` bytes, extending
with zero bytes when it is shorter. -/
def truncStage : Option Nat → List Nat → List Nat
  | none, file => file
  | some s, file => file.take s ++ List.replicate (s - file.length) 0

/-- The bytes of an ASCII string literal. -/
def strBytes (s : String) : List Nat := s.toList.map Char.toNat

/-- The guard `^[\x20-\x7E\n\t\r]*$` applied to one byte. -/
def isPrintableByte (b : Nat) : Bool :=
  (32 ≤ b && b ≤ 126) || b == 10 || b == 9 || b == 13

/-- `getCharacterFixes` from `util.ts`, in object insertion order. -/
def getCharacterFixes : List (List Nat × List Nat) :=
  [ (strBytes "7", strBytes "?"),
    (strBytes "(", strBytes "+"),
    (strBytes ":", strBytes "="),
    (strBytes "Y", strBytes "\\"),
    (strBytes "?", strBytes "<"),
    (strBytes "^", strBytes "*"),
    (strBytes "|", strBytes "/"),
    (strBytes "&", strBytes "%"),
    (strBytes "p", strBytes "s"),
    (strBytes "hah", strBytes "hai") ]

/-- JavaScript `String.prototype.includes` on byte lists. -/
def isInfixL [DecidableEq β] : List β → List β → Bool
  | pat, [] => pat.isEmpty
  | pat, c :: rest => pat.isPrefixOf (c :: rest) || isInfixL pat rest

/-- JavaScript global `replace` with an escaped literal pattern: rewrite
every leftmost non-overlapping occurrence.  Structural fuel recursion;
`fuel = length` always suffices (each step consumes at least one element). -/
def replaceAllGo [DecidableEq β] : Nat → List β → List β → List β → List β
  | 0, l, _, _ => l
  | _ + 1, [], _, _ => []
  | fuel + 1, c :: rest, pat, rep =>
    if ¬pat.isEmpty ∧ pat.isPrefixOf (c :: rest) = true then
      rep ++ replaceAllGo fuel ((c :: rest).drop pat.length) pat rep
    else c :: replaceAllGo fuel rest pat rep

def replaceAllL [DecidableEq β] (l pat rep : List β) : List β :=
  replaceAllGo l.length l pat rep

/-- One character-fix pass over the decoded text `t` (shared by the two call
sites in `decode`): walk the fix table, replacing every occurrence of a key
that occurs in the *original* text; then the "hah"→"hai" emergency fix
(guarded by `hahGate`, which at the first call site is
`encodingVersion !== '1.3'` and at the checksum call site is always true);
then the "detail<"→"details?" fix, which — as in the source — is applied to
the original text, discarding the earlier replacements.  Returns the fixed
text and the `needsFix` flag. -/
def fixPass (hahGate : Bool) (t : List Nat) : List Nat × Bool :=
  let step1 :=
    getCharacterFixes.foldl
      (fun (acc : List Nat × Bool) pr =>
        if isInfixL pr.1 t then (replaceAllL acc.1 pr.1 pr.2, true) else acc)
      (t, false)
  let step2 :=
    if isInfixL (strBytes "hah") t && !isInfixL (strBytes "hai") t && hahGate then
      (replaceAllL step1.1 (strBytes "hah") (strBytes "hai"), true)
    else step1
  if isInfixL (strBytes "details") t && isInfixL (strBytes "detail<") t then
    (replaceAllL t (strBytes "detail<") (strBytes "details?"), true)
  else step2

/-- The first fix stage of `decode`: only for an output below 1000 bytes that
is printable ASCII (plus newline, tab, carriage return); the fixed text is
written back only when some fix applied. -/
def applyStage1 (m : DecMeta) (file : List Nat) : List Nat :=
  if file.length < 1000 ∧ file.all isPrintableByte = true then
    let p := fixPass (decide (m.encodingVersion ≠ some "1.3")) file
    if p.2 then p.1 else file
  else file

/-- The second fix stage of `decode`: when a checksum was declared and the
recomputed checksum of the (possibly already fixed) output mismatches, and the
output is below 1000 bytes, run the fix pass again (this time without the
printable guard and without the version gate on the "hah" fix). -/
def applyStage2 (m : DecMeta) (file : List Nat) : List Nat :=
  match m.fileChecksum with
  | none => file
  | some cs =>
    if calculateChecksum file ≠ cs ∧ file.length < 1000 then
      let p := fixPass true file
      if p.2 then p.1 else file
    else file

/-- The decoder up to and including the `ftruncateSync` call: extract the
metadata from the first block, order the blocks, replay them, flush the
remaining bits, and truncate to the declared size. -/
def decodeCore (O : Oracle σ α) [DecidableEq α] (games : List (DecSeg α)) : List Nat :=
  let m := extractMeta games
  let sorted := sortGames m.expectedGameCount games
  let st := gamesLoop O m sorted ⟨[], [], [], 0⟩
  let st2 := remainingBlock m st
  truncStage m.originalFileSize st2.file

/-- The bytes `decode` leaves in the output file. -/
def decodeGames (O : Oracle σ α) [DecidableEq α] (games : List (DecSeg α)) : List Nat :=
  let m := extractMeta games
  applyStage2 m (applyStage1 m (decodeCore O games))

/-- `decode`: fails only when the block list is empty ("No valid chess games
found in the PGN data"); otherwise it always produces bytes. -/
def decode (O : Oracle σ α) [DecidableEq α] (games : List (DecSeg α)) :
    Except String (List Nat) :=
  if games.isEmpty then .error "No valid chess games found in the PGN data"
  else .ok (decodeGames O games)

/-- The ASCII whitespace characters matched by the JavaScript `\s` class (the
transcripts produced and consumed here are ASCII). -/
def isJsWs (c : Char) : Bool :=
  c == ' ' || c == '\t' || c == '\n' || c == '\x0b' || c == '\x0c' || c == '\r'

/-- The two normalization passes `replace(/\r\n/g, '\n')` then
`replace(/\r/g, '\n')`, fused into one left-to-right scan (same result). -/
def normalizeNewlines : List Char → List Char
  | [] => []
  | '\r' :: '\n' :: rest => '\n' :: normalizeNewlines rest
  | '\r' :: rest => '\n' :: normalizeNewlines rest
  | c :: rest => c :: normalizeNewlines rest

/-- JavaScript `trim` (both ends, `\s`). -/
def trimL (l : List Char) : List Char :=
  ((l.dropWhile isJsWs).reverse.dropWhile isJsWs).reverse

/-- Match of the separator regex `\n\s*\n` anchored at the head of the list:
a newline, then the greedy-with-backtracking `\s*`, then a newline — i.e. the
match extends to the *last* newline of the whitespace run that follows the
first newline.  Returns the match length. -/
def matchBlankAt : List Char → Option Nat
  | '\n' :: rest =>
    let w := rest.takeWhile isJsWs
    match w.reverse.findIdx? (fun c => c = '\n') with
    | some j => some (w.length - 1 - j + 2)
    | none => none
  | _ => none

/-- `split(/\n\s*\n/)`: scan left to right for the leftmost separator match,
cut, and continue after it. -/
def splitBlankGo : Nat → List Char → List Char → List (List Char)
  | 0, l, acc => [acc.reverse ++ l]
  | _ + 1, [], acc => [acc.reverse]
  | fuel + 1, c :: rest, acc =>
    match matchBlankAt (c :: rest) with
    | some len => acc.reverse :: splitBlankGo fuel ((c :: rest).drop len) []
    | none => splitBlankGo fuel rest (c :: acc)

def splitBlank (l : List Char) : List (List Char) := splitBlankGo (l.length + 1) l []

/-- `/\d+\./.test(s)`: some digit immediately followed by a period (a longer
digit run reduces to its last digit). -/
def hasDigitDot : List Char → Bool
  | c :: d :: rest => (c.isDigit && d == '.') || hasDigitDot (d :: rest)
  | _ => false

/-- `\w` (letters, digits, underscore). -/
def isWordChar (c : Char) : Bool := isAsciiAlnum c || c == '_'

/-- Match of the tag regex `\[\s*(\w+)\s+"([^"]*)"\s*\]` anchored at the head
of the list.  All the quantified classes are disjoint from what follows them,
so the greedy scan needs no backtracking.  Returns the match length and the
first capture group (the tag name). -/
def matchTagAt (l : List Char) : Option (Nat × List Char) :=
  match l with
  | '[' :: r0 =>
    let ws1 := r0.takeWhile isJsWs
    let r1 := r0.drop ws1.length
    let word := r1.takeWhile isWordChar
    if word.isEmpty then none
    else
      let r2 := r1.drop word.length
      let ws2 := r2.takeWhile isJsWs
      if ws2.isEmpty then none
      else
        match r2.drop ws2.length with
        | '"' :: r4 =>
          let val := r4.takeWhile (fun c => c ≠ '"')
          match r4.drop val.length with
          | '"' :: r6 =>
            let ws3 := r6.takeWhile isJsWs
            match r6.drop ws3.length with
            | ']' :: _ =>
              some (1 + ws1.length + word.length + ws2.length + 1 + val.length + 1 +
                ws3.length + 1, word)
            | _ => none
          | _ => none
        | _ => none
  | _ => none

/-- All matches of the tag regex with their start positions, scanning left to
right and continuing after each match (`exec` with the `g` flag). -/
def tagScanGo : Nat → List Char → Nat → List (Nat × List Char)
  | 0, _, _ => []
  | _ + 1, [], _ => []
  | fuel + 1, c :: rest, pos =>
    match matchTagAt (c :: rest) with
    | some (len, w) => (pos, w) :: tagScanGo fuel ((c :: rest).drop len) (pos + len)
    | none => tagScanGo fuel rest (pos + 1)

def tagScan (l : List Char) : List (Nat × List Char) := tagScanGo (l.length + 1) l 0

/-- The `Event`-tag splitting loop of `getPgnGames`: every `Event` tag that is
not the first tag starts a new game; the last game runs to the end. -/
def eventSplit (norm : List Char) (ms : List (Nat × List Char)) : List (List Char) :=
  let step :=
    ms.foldl
      (fun (acc : List (List Char) × Option Nat) mt =>
        match acc.2 with
        | some li =>
          if mt.2 = "Event".toList then
            (acc.1 ++ [trimL ((norm.drop li).take (mt.1 - li))], some mt.1)
          else acc
        | none => (acc.1, some mt.1))
      ([], none)
  match step.2 with
  | some li => step.1 ++ [trimL (norm.drop li)]
  | none => step.1

/-- `getPgnGames` from `util.ts` (the lenient splitter): empty input yields no
games; otherwise split on blank lines, which is kept whenever it yields more
than one block or the text carries the metadata tags of the codec; otherwise fall
back to the whole text, to be split at repeated `Event` tags only when it
looks like standard PGN. -/
def getPgnGames (pgn : String) : List String :=
  let l := pgn.toList
  if (trimL l).isEmpty then []
  else
    let norm := normalizeNewlines l
    let hasMetadata :=
      isInfixL ("[FileSize \"".toList) norm || isInfixL ("[Checksum \"".toList) norm ||
        isInfixL ("[EncodingVersion \"".toList) norm
    let doubleSplit := splitBlank norm
    if 1 < doubleSplit.length || hasMetadata then
      ((doubleSplit.map trimL).filter (fun g => ¬g.isEmpty)).map List.asString
    else
      let singleGame := trimL norm
      let hasStandardFormat :=
        isInfixL ['['] singleGame && isInfixL [']'] singleGame && hasDigitDot singleGame
      if ¬hasStandardFormat then [singleGame.asString]
      else
        let potentialGames := eventSplit norm (tagScan norm)
        if 1 < potentialGames.length then
          (potentialGames.filter (fun g => ¬g.isEmpty)).map List.asString
        else [singleGame.asString]

/-- `decode` as called on a transcript string: split it with `getPgnGames`,
run each block through the external PGN parser (`loadPgn`, abstracted as
`parseGame` since `chess.js` is not part of this repository), and process the
blocks. -/
def decodeStr (O : Oracle σ α) [DecidableEq α] (parseGame : String → Option (Game α))
    (pgn : String) : Except String (List Nat) :=
  decode O
    ((getPgnGames pgn).map
      (fun t =>
        match parseGame t with
        | some g => DecSeg.parsed g
        | none => DecSeg.raw t))

/-- A mock oracle with a constant legal-move list, as the specification's
testable properties use ("a mock oracle with deterministic … branching at
every state"). -/
def oracleConst (acts : List Nat) : Oracle Unit Nat :=
  { init := (), legalMoves := fun _ => acts, applyMove := fun _ _ => (),
    isDraw := fun _ => false, isInsufficientMaterial := fun _ => false }

/-- Eight actions at every state: each multi-bit step carries three bits. -/
def oracle8 : Oracle Unit Nat := oracleConst [0, 1, 2, 3, 4, 5, 6, 7]

/-- Two actions at every state: each step carries exactly one bit. -/
def oracle2 : Oracle Unit Nat := oracleConst [0, 1]

/-- A mock oracle that forces eighty single-option moves before offering a
choice (the state counts the moves played). -/
def oracleForced : Oracle Nat Nat :=
  { init := 0, legalMoves := fun s => if s < 80 then [9] else [0, 1],
    applyMove := fun s _ => s + 1, isDraw := fun _ => false,
    isInsufficientMaterial := fun _ => false }

/-- Header block with only the given tags set. -/
def mkHeaders (fs : Option Nat) (cs : Option String) (ev : Option String)
    (gc gi bp : Option Nat) : Headers :=
  ⟨fs, cs, ev, gc, gi, bp⟩

/-- The moves that make a two-action oracle reproduce exactly the bits of the
given bytes: action 1 for a one bit, action 0 for a zero bit. -/
def movesOfBytes (bytes : List Nat) : List Nat :=
  (bytesToBits bytes).map (fun b => if b then 1 else 0)

instance {ε β : Type} [DecidableEq ε] [DecidableEq β] : DecidableEq (Except ε β) :=
  fun a b =>
    match a, b with
    | .ok x, .ok y =>
      if h : x = y then isTrue (by rw [h]) else isFalse (by intro hc; cases hc; exact h rfl)
    | .error x, .error y =>
      if h : x = y then isTrue (by rw [h]) else isFalse (by intro hc; cases hc; exact h rfl)
    | .ok _, .error _ => isFalse (by intro hc; cases hc)
    | .error _, .ok _ => isFalse (by intro hc; cases hc)

theorem jsInsert_key_pred [DecidableEq α] {P : α → Prop} {m : List (α × Bits)}
    {k : α} {v : Bits} (hm : ∀ e ∈ m, P e.1) (hk : P k) :
    ∀ e ∈ jsInsert m k v, P e.1 := by
  intro e he
  simp only [jsInsert] at he
  by_cases h : (m.any (fun p => p.1 = k)) = true
  · rw [if_pos h] at he
    rcases List.mem_map.mp he with ⟨p, hp, hpe⟩
    by_cases hpk : p.1 = k
    · rw [if_pos hpk] at hpe
      rw [← hpe]
      show P p.1
      rw [hpk]
      exact hk
    · rw [if_neg hpk] at hpe
      rw [← hpe]
      exact hm p hp
  · rw [if_neg h] at he
    rcases List.mem_append.mp he with he | he
    · exact hm e he
    · have he' : e = (k, v) := by simpa using he
      rw [he']
      exact hk

theorem buildMoveBits_mem [DecidableEq α] {legal : List α} {L : Nat}
    {e : α × Bits} (he : e ∈ buildMoveBits legal L) :
    ∃ i, i < 2 ^ L ∧ legal[i]? = some e.1 := by
  suffices h : ∀ (ps : List (Nat × α)) (m0 : List (α × Bits)),
      (∀ x ∈ m0, ∃ i, i < 2 ^ L ∧ legal[i]? = some x.1) →
      (∀ p ∈ ps, legal[p.1]? = some p.2) →
      ∀ x ∈ ps.foldl
        (fun m p => if p.1 < 2 ^ L then jsInsert m p.2 (toBinaryString p.1 L) else m) m0,
        ∃ i, i < 2 ^ L ∧ legal[i]? = some x.1 by
    refine h legal.enum [] (by simp) ?_ e he
    intro p hp
    exact List.mem_enum_iff_getElem?.mp hp
  intro ps
  induction ps with
  | nil => intro m0 hm0 _ x hx; exact hm0 x hx
  | cons p rest ih =>
    intro m0 hm0 hps x hx
    simp only [List.foldl_cons] at hx
    by_cases hlt : p.1 < 2 ^ L
    · rw [if_pos hlt] at hx
      refine ih _ ?_ (fun q hq => hps q (List.mem_cons_of_mem p hq)) x hx
      exact jsInsert_key_pred (P := fun a => ∃ i, i < 2 ^ L ∧ legal[i]? = some a) hm0
        ⟨p.1, hlt, hps p (List.mem_cons_self p rest)⟩
    · rw [if_neg hlt] at hx
      exact ih m0 hm0 (fun q hq => hps q (List.mem_cons_of_mem p hq)) x hx

theorem pickBestZero_mem {m : List (α × Bits)} {e : α × Bits}
    (he : pickBestZero m = some e) : e ∈ m := by
  suffices h : ∀ (l : List (α × Bits)) (acc : Int × Option (α × Bits)),
      (∀ x, acc.2 = some x → x ∈ m) → (∀ x ∈ l, x ∈ m) →
      ∀ x, (l.foldl
        (fun acc p =>
          let zc : Int := Int.ofNat (p.2.count false)
          if acc.1 < zc then (zc, some p) else acc) acc).2 = some x → x ∈ m by
    exact h m ((-1 : Int), none) (by simp) (fun x hx => hx) e he
  intro l
  induction l with
  | nil => intro acc hacc _ x hx; exact hacc x hx
  | cons p rest ih =>
    intro acc hacc hl x hx
    simp only [List.foldl_cons] at hx
    refine ih _ ?_ (fun q hq => hl q (List.mem_cons_of_mem p hq)) x hx
    intro y hy
    by_cases hcmp : acc.1 < Int.ofNat (p.2.count false)
    · simp only [hcmp, if_true] at hy
      cases hy
      exact hl p (List.mem_cons_self p rest)
    · simp only [hcmp, if_false] at hy
      exact hacc y hy

theorem selectEntry_mem [DecidableEq α] {m : List (α × Bits)} {chunk : Bits}
    {L : Nat} {psi : Bool} {r : Nat} {a : α} {bits : Bits} {rex : Nat}
    (h : selectEntry m chunk L psi r = .sel a bits rex) : (a, bits) ∈ m := by
  simp only [selectEntry] at h
  cases h1 : m.find? (fun p => p.2 == chunk) with
  | some p =>
    rw [h1] at h
    simp only [SelRes.sel.injEq] at h
    rw [← h.1, ← h.2.1]
    simpa using List.mem_of_find?_eq_some h1
  | none =>
    rw [h1] at h
    cases h2 : (if psi then m.find? (fun p => p.2.isPrefixOf chunk) else none) with
    | some p =>
      rw [h2] at h
      simp only [SelRes.sel.injEq] at h
      have hp : m.find? (fun p => p.2.isPrefixOf chunk) = some p := by
        by_cases hpsi : psi
        · rw [if_pos hpsi] at h2; exact h2
        · rw [if_neg hpsi] at h2; cases h2
      rw [← h.1, ← h.2.1]
      simpa using List.mem_of_find?_eq_some hp
    | none =>
      rw [h2] at h
      by_cases hr : r < 5
      · rw [if_pos hr] at h
        by_cases hL : 0 < L - 1
        · rw [if_pos hL] at h
          cases h3 : m.find? (fun p => p.2 == chunk.take (L - 1)) with
          | some p =>
            rw [h3] at h
            simp only [SelRes.sel.injEq] at h
            rw [← h.1, ← h.2.1]
            simpa using List.mem_of_find?_eq_some h3
          | none => rw [h3] at h; cases h
        · rw [if_neg hL] at h; cases h
      · rw [if_neg hr] at h
        cases h4 : pickBestZero m with
        | some p =>
          rw [h4] at h
          simp only [SelRes.sel.injEq] at h
          rw [← h.1, ← h.2.1]
          simpa using pickBestZero_mem h4
        | none => rw [h4] at h; cases h

theorem encL_le (psi : Bool) (bitIdx total k : Nat) : encL psi bitIdx total k ≤ k := by
  simp only [encL]
  by_cases h : (psi && bitIdx % 8 == 0 && decide (8 ≤ total - bitIdx) && decide (8 ≤ k)) = true
  · rw [if_pos h]
    simp only [Bool.and_eq_true, decide_eq_true_eq] at h
    exact h.2
  · rw [if_neg h]
    exact min_le_left _ _

/-- **C5.**  At every encoding step with at least two legal actions, whatever
selection path fires (exact chunk match, special-'i' prefix match, the
shortened-chunk retry match, or the zero-heavy fallback), the selected action
is one of the keys of `moveBits`, and every key of `moveBits` sits at an index
strictly below `2 ^ maxBinaryLength ≤ 2 ^ floor(log2 n)` in the oracle's
ordered legal-action list: encode never selects an action with index at or
above `2 ^ k`.  The arguments are exactly those `encodeStep` passes to
`selectEntry`. -/
theorem claim_C5_direct_index {σ α : Type} [DecidableEq α] (O : Oracle σ α)
    (st : EncSt σ α) (fileBytes : List Nat) (a : α) (bits : Bits) (rex : Nat)
    (_hn : 2 ≤ (O.legalMoves st.board).length)
    (hsel : selectEntry
        (buildMoveBits (O.legalMoves st.board)
          (encL (encPsi fileBytes st) st.fileBitIndex (8 * fileBytes.length)
            (jsLog2 (O.legalMoves st.board).length)))
        (((bytesToBits fileBytes).drop st.fileBitIndex).take
          (encL (encPsi fileBytes st) st.fileBitIndex (8 * fileBytes.length)
            (jsLog2 (O.legalMoves st.board).length)))
        (encL (encPsi fileBytes st) st.fileBitIndex (8 * fileBytes.length)
          (jsLog2 (O.legalMoves st.board).length))
        (encPsi fileBytes st) st.retryCount = .sel a bits rex) :
    ∃ i, i < 2 ^ jsLog2 (O.legalMoves st.board).length ∧
      (O.legalMoves st.board)[i]? = some a := by
  obtain ⟨i, hi, hget⟩ := buildMoveBits_mem (selectEntry_mem hsel)
  exact ⟨i, lt_of_lt_of_le hi (Nat.pow_le_pow_right (by norm_num) (encL_le _ _ _ _)), hget⟩

theorem claim_C5_direct_index_witness :
    ∃ i, i < 2 ^ jsLog2 ((oracleConst [10, 20, 30]).legalMoves ()).length ∧
      ((oracleConst [10, 20, 30]).legalMoves ())[i]? = some 20 :=
  claim_C5_direct_index (oracleConst [10, 20, 30])
    ⟨0, (), [], mkHeaders none none none none none none, [], 0, false⟩ [255] 20 [true] 0
    (by decide) (by decide)

/-- **C4.**  At a state with exactly one legal action, an encode step applies
that sole action, leaves the payload cursor (`fileBitIndex`) untouched, and
changes nothing else; and a decode replay step at such a state applies the
action and appends nothing to the bit accumulator (the decoder state is
returned unchanged). -/
theorem claim_C4_forced_move {σ α : Type} [DecidableEq α] (O : Oracle σ α)
    (fileBytes : List Nat) (st : EncSt σ α) (a : α) (size? : Option Nat)
    (b : σ) (dst : DecLoop)
    (henc : O.legalMoves st.board = [a]) (hdec : O.legalMoves b = [a]) :
    encodeStep O fileBytes st =
      .cont { st with
                board := O.applyMove st.board a
                history := st.history ++ [a]
                processingSpecialI := encPsi fileBytes st } ∧
    replayStep O size? b dst a = .cont (O.applyMove b a) dst := by
  constructor
  · simp only [encodeStep, henc]
    norm_num [jsLog2, log2Go]
  · simp only [replayStep, hdec]
    simp [List.findIdx?]

theorem claim_C4_forced_move_witness :
    encodeStep (oracleConst [7]) [1] ⟨0, (), [], mkHeaders none none none none none none, [], 0, false⟩ =
      .cont ⟨0, (), [7], mkHeaders none none none none none none, [], 0, false⟩ ∧
    replayStep (oracleConst [7]) none () ⟨[], [], [], 0⟩ 7 = .cont () ⟨[], [], [], 0⟩ := by
  have h := claim_C4_forced_move (oracleConst [7]) [1]
    ⟨0, (), [], mkHeaders none none none none none none, [], 0, false⟩ 7 none () ⟨[], [], [], 0⟩
    (by decide) (by decide)
  exact h

/-- **C8 (amended).**  The 80-action cap is only checked on the bit-carrying
path: whenever `execMove` (the execution of a selected multi-bit move) brings
the recorded action count to 80 or beyond, the segment is closed at once — the
game (with the new move) is appended to the emitted list.  Forced single-move
steps bypass this check (see the counterexample), so emitted segments can
exceed 80 actions. -/
theorem claim_C8_amended_cap {σ α : Type} [DecidableEq α] (O : Oracle σ α)
    (fileBytes : List Nat) (st : EncSt σ α) (n L : Nat) (a : α) (r : Nat)
    (psi : Bool) (h80 : 80 ≤ st.history.length + 1) :
    ∃ st1, (execMove O fileBytes st n L a r psi).state = some st1 ∧
      st1.outputPgns = st.outputPgns ++ [⟨st.curHeaders, st.history ++ [a]⟩] := by
  have hcond : n ≤ 1 ∨ O.isInsufficientMaterial (O.applyMove st.board a) = true ∨
      O.isDraw (O.applyMove st.board a) = true ∨
      decide (8 * fileBytes.length ≤ st.fileBitIndex +
        (if 0 < r ∧ 1 < L then L - 1 else L)) = true ∨
      80 ≤ (st.history ++ [a]).length := by
    refine Or.inr (Or.inr (Or.inr (Or.inr ?_)))
    simp only [List.length_append, List.length_singleton]
    omega
  simp only [execMove]
  rw [if_pos hcond]
  by_cases heof : decide (8 * fileBytes.length ≤ st.fileBitIndex +
      (if 0 < r ∧ 1 < L then L - 1 else L)) = true
  · rw [if_pos heof]
    exact ⟨_, rfl, rfl⟩
  · rw [if_neg heof]
    exact ⟨_, rfl, rfl⟩

theorem claim_C8_amended_cap_witness :
    ∃ st1, (execMove oracle2 [0]
        ⟨0, (), List.replicate 79 0, mkHeaders none none none none none none, [], 0, false⟩
        2 1 1 0 false).state = some st1 ∧
      st1.outputPgns = [] ++ [⟨mkHeaders none none none none none none,
        List.replicate 79 0 ++ [1]⟩] :=
  claim_C8_amended_cap oracle2 [0]
    ⟨0, (), List.replicate 79 0, mkHeaders none none none none none none, [], 0, false⟩
    2 1 1 0 false (by decide)

set_option maxRecDepth 100000 in
/-- **C8 (counterexample).**  With an oracle that forces eighty single-option
moves before offering a choice, encoding the one-byte payload `[0]` emits
games of 81 recorded actions each — the forced moves skip the cap check, so a
segment exceeds the claimed 80-action bound. -/
theorem claim_C8_counterexample :
    (encode oracleForced [0] 700).map (fun gs => gs.head?.map (fun g => g.moves.length)) =
      some (some 81) := by
  decide

/-- **C9.**  `calculateChecksum` — modelled with the JavaScript signed 32-bit
`^`/`Math.imul` semantics — computes exactly the 32-bit FNV-1a hash as the
specification describes it (offset basis 2166136261, xor each byte, multiply
by the prime 16777619, truncated modulo `2^32`), rendered as an 8-character
zero-padded lowercase hexadecimal string. -/
theorem claim_C9_checksum (l : List Nat) (hb : ∀ b ∈ l, b < 256) :
    calculateChecksum l = String.mk (padStart8 (hexChars 8 (fnv1aSpec l))) ∧
    (calculateChecksum l).data.length = 8 := by
  have hloop := checksum_loop_eq l 2166136261 hb
  have hinit : toUint32 (2166136261 : Int) = 2166136261 := by decide
  rw [hinit] at hloop
  have hmain : calculateChecksum l = String.mk (padStart8 (hexChars 8 (fnv1aSpec l))) := by
    simp only [calculateChecksum, fnv1aSpec]
    rw [hloop]
  refine ⟨hmain, ?_⟩
  rw [hmain]
  show (padStart8 (hexChars 8 (fnv1aSpec l))).length = 8
  have hle := hexChars_length_le 8 (fnv1aSpec l)
  have hm : max 1 8 = 8 := by norm_num
  rw [hm] at hle
  simp only [padStart8, List.length_append, List.length_replicate]
  omega

theorem claim_C9_checksum_witness :
    calculateChecksum [104, 105] =
      String.mk (padStart8 (hexChars 8 (fnv1aSpec [104, 105]))) ∧
    (calculateChecksum [104, 105]).data.length = 8 :=
  claim_C9_checksum [104, 105] (by decide)

/-- **C6.**  `decode`, called on a transcript string, fails with the
"no valid chess games" error exactly when the segment splitter `getPgnGames`
returns an empty list; whenever the splitter yields at least one block —
whether or not the external PGN parser accepts it — `decode` returns bytes.
(`parseGame` abstracts the `loadPgn` of `chess.js`, which is not part of this
repository.) -/
theorem claim_C6_error_iff_no_segments {σ α : Type} [DecidableEq α] (O : Oracle σ α)
    (parseGame : String → Option (Game α)) (s : String) :
    ((∃ e, decodeStr O parseGame s = .error e) ↔ getPgnGames s = []) ∧
    (getPgnGames s ≠ [] → ∃ bs, decodeStr O parseGame s = .ok bs) := by
  simp only [decodeStr, decode]
  cases hg : getPgnGames s with
  | nil =>
    constructor
    · simp
    · intro h; exact absurd rfl h
  | cons t ts =>
    constructor
    · constructor
      · rintro ⟨e, he⟩
        simp only [List.map_cons, List.isEmpty_cons, Bool.false_eq_true, if_false] at he
        cases he
      · intro h; cases h
    · intro _
      simp only [List.map_cons, List.isEmpty_cons, Bool.false_eq_true, if_false]
      exact ⟨_, rfl⟩

/-- **C3 (amended).**  A block that fails to parse is *not* skipped silently:
the games loop appends exactly the fallback extraction of its raw text to the
output file (which may be non-empty) and continues.  A block that fails
during *replay* — a recorded move that is not legal at the replayed position
(the `moveIndexInLegal === -1` path, whose recovery attempt throws and breaks)
— is abandoned from the failure point: the rest of its moves are skipped and
the decoder state is returned exactly as it was, so the bytes already flushed
stay in the output and the unflushed accumulator bits (`outputData`) are
carried onward and mixed into bytes flushed for later blocks.  And `decode`
never raises on a non-empty transcript, whatever bad blocks it contains. -/
theorem claim_C3_amended {σ α : Type} [DecidableEq α] (O : Oracle σ α) (m : DecMeta)
    (t : String) (rest : List (DecSeg α)) (st : DecLoop) (games : List (DecSeg α))
    (size? : Option Nat) (mv : α) (moves : List α) (b : σ) (st2 : DecLoop)
    (hne : games ≠ []) (hmv : mv ∉ O.legalMoves b) :
    gamesLoop O m (DecSeg.raw t :: rest) st =
      gamesLoop O m rest ⟨st.file ++ fallbackBytes t, st.outputData, st.allBits,
        st.totalBytes + (fallbackBytes t).length⟩ ∧
    replayGo O size? (mv :: moves) b st2 = st2 ∧
    ∃ out, decode O games = .ok out := by
  refine ⟨rfl, ?_, ?_⟩
  · have hstep : replayStep O size? b st2 mv = .brk st2 := by
      cases hleg : O.legalMoves b with
      | nil => simp only [replayStep, hleg]
      | cons m0 r =>
        have hfind : (m0 :: r).findIdx? (fun x => x = mv) = none := by
          rw [List.findIdx?_eq_none_iff]
          intro x hx
          simp only [decide_eq_false_iff_not]
          intro hc
          rw [hleg] at hmv
          exact hmv (hc ▸ hx)
        simp only [replayStep, hleg, hfind]
    simp only [replayGo, hstep]
  · have h : games.isEmpty = false := by
      cases games with
      | nil => exact absurd rfl hne
      | cons a l => rfl
    simp only [decode, h, Bool.false_eq_true, if_false]
    exact ⟨_, rfl⟩

theorem claim_C3_amended_witness :
    gamesLoop oracle2 ⟨none, none, none, none⟩ [DecSeg.raw "aaaaaaab"] ⟨[], [], [], 0⟩ =
      gamesLoop oracle2 ⟨none, none, none, none⟩ []
        ⟨[] ++ fallbackBytes "aaaaaaab", [], [], 0 + (fallbackBytes "aaaaaaab").length⟩ ∧
    replayGo oracle2 none [5, 0, 1] () ⟨[7], [true, false, true], [true, false, true], 1⟩ =
      ⟨[7], [true, false, true], [true, false, true], 1⟩ ∧
    ∃ out, decode oracle2 [DecSeg.raw "aaaaaaab"] = .ok out :=
  claim_C3_amended oracle2 ⟨none, none, none, none⟩ "aaaaaaab" [] ⟨[], [], [], 0⟩
    [DecSeg.raw "aaaaaaab"] none 5 [0, 1] ()
    ⟨[7], [true, false, true], [true, false, true], 1⟩ (by decide) (by decide)

set_option maxRecDepth 100000 in
/-- **C3 (counterexample).**  A transcript with one good block (decoding to
the byte 0) followed by a block whose text fails to parse: the bad block
contributes the byte 254 through the fallback extractor, so the output is
`[0, 254]`, not the `[0]` that "the failed segment contributes no output
bytes" would give. -/
theorem claim_C3_counterexample :
    decode oracle2 [DecSeg.parsed ⟨mkHeaders none none none none none none, movesOfBytes [0]⟩,
        DecSeg.raw "aaaaaaab"] = .ok [0, 254] ∧
    fallbackBytes "aaaaaaab" = [254] ∧ ([0, 254] : List Nat) ≠ [0] := by
  refine ⟨by decide, by decide, by decide⟩

/-- **C7 (amended).**  The decoder reorders blocks only when the first block
declares a `segment_count` above one: in that case, if every block parses and
carries a `segment_index` the blocks are stably sorted into ascending index
order (a permutation of the transcript, with sorted indices); in every other
case — `segment_count` absent or at most one, or any block without an index —
the transcript order is kept unchanged. -/
theorem claim_C7_amended {α : Type} [DecidableEq α] (egc : Option Nat)
    (games : List (DecSeg α)) :
    (egc.getD 0 ≤ 1 → sortGames egc games = games) ∧
    (1 < egc.getD 0 → games.all (fun s => (segGameIndex s).isSome) = false →
      sortGames egc games = games) ∧
    (1 < egc.getD 0 → games.all (fun s => (segGameIndex s).isSome) = true →
      (sortGames egc games).Perm games ∧
        List.Sorted (· ≤ ·)
          ((sortGames egc games).map (fun s => (segGameIndex s).getD 0))) := by
  refine ⟨?_, ?_, ?_⟩
  · intro h
    simp only [sortGames]
    rw [if_neg (by omega)]
  · intro h1 h2
    simp only [sortGames]
    rw [if_pos h1]
    simp only [h2, Bool.false_eq_true, if_false]
  · intro h1 h2
    simp only [sortGames]
    rw [if_pos h1, if_pos h2]
    constructor
    · exact List.mergeSort_perm games _
    · have htrans : ∀ (a b c : DecSeg α),
          decide ((segGameIndex a).getD 0 ≤ (segGameIndex b).getD 0) = true →
          decide ((segGameIndex b).getD 0 ≤ (segGameIndex c).getD 0) = true →
          decide ((segGameIndex a).getD 0 ≤ (segGameIndex c).getD 0) = true := by
        intro a b c hab hbc
        exact decide_eq_true (le_trans (of_decide_eq_true hab) (of_decide_eq_true hbc))
      have htotal : ∀ (a b : DecSeg α),
          (decide ((segGameIndex a).getD 0 ≤ (segGameIndex b).getD 0) ||
            decide ((segGameIndex b).getD 0 ≤ (segGameIndex a).getD 0)) = true := by
        intro a b
        rcases Nat.le_total ((segGameIndex a).getD 0) ((segGameIndex b).getD 0) with h | h
        · simp [h]
        · simp [h]
      have hs := @List.sorted_mergeSort (DecSeg α)
        (fun a b => decide ((segGameIndex a).getD 0 ≤ (segGameIndex b).getD 0))
        htrans htotal games
      show List.Pairwise _ _
      rw [List.pairwise_map]
      exact hs.imp (fun h => of_decide_eq_true h)

def segsC7 : List (DecSeg Nat) :=
  [DecSeg.parsed ⟨mkHeaders none none none none (some 2) none, [1]⟩,
   DecSeg.parsed ⟨mkHeaders none none none none (some 1) none, [0]⟩]

theorem claim_C7_amended_witness :
    (sortGames (some 2) segsC7).Perm segsC7 ∧
      List.Sorted (· ≤ ·) ((sortGames (some 2) segsC7).map (fun s => (segGameIndex s).getD 0)) :=
  (claim_C7_amended (some 2) segsC7).2.2 (by decide) (by decide)

set_option maxRecDepth 100000 in
/-- **C7 (counterexample).**  Both blocks of this transcript carry a
`segment_index` (2, then 1), but the first block declares no `segment_count`,
so the decoder does *not* sort: it replays in transcript order and returns
`[255, 0]` where the claimed index-ascending replay would give `[0, 255]`. -/
theorem claim_C7_counterexample :
    decode oracle2
        [DecSeg.parsed ⟨mkHeaders none none none none (some 2) none, movesOfBytes [255]⟩,
         DecSeg.parsed ⟨mkHeaders none none none none (some 1) none, movesOfBytes [0]⟩] =
      .ok [255, 0] ∧ ([255, 0] : List Nat) ≠ [0, 255] := by
  refine ⟨by decide, by decide⟩

def gamesC10 : List (DecSeg Nat) :=
  [DecSeg.parsed ⟨mkHeaders (some 3) none none none none none,
    movesOfBytes (strBytes "a7a")⟩]

set_option maxRecDepth 100000 in
/-- **C10.**  Whenever the truncated reconstruction is shorter than 1000
bytes and printable ASCII (plus newline/tab/carriage-return), the bytes
`decode` returns are the reconstruction rewritten by the two character-fix
stages, and the first stage is exactly the `getCharacterFixes`-table rewrite
(applied only when some entry matched); consequently the returned bytes can
differ from the bytes reconstructed from the move stream — concretely, the
transcript `gamesC10` reconstructs to "a7a" but `decode` returns "a?a". -/
theorem claim_C10_character_fixes {σ α : Type} [DecidableEq α] (O : Oracle σ α)
    (games : List (DecSeg α)) (out : List Nat)
    (hok : decode O games = .ok out)
    (hlen : (decodeCore O games).length < 1000)
    (hprint : (decodeCore O games).all isPrintableByte = true) :
    (out = applyStage2 (extractMeta games)
        (applyStage1 (extractMeta games) (decodeCore O games)) ∧
      applyStage1 (extractMeta games) (decodeCore O games) =
        (if (fixPass (decide ((extractMeta games).encodingVersion ≠ some "1.3"))
              (decodeCore O games)).2 = true then
           (fixPass (decide ((extractMeta games).encodingVersion ≠ some "1.3"))
             (decodeCore O games)).1
         else decodeCore O games)) ∧
    decodeGames oracle2 gamesC10 = strBytes "a?a" ∧
    decodeCore oracle2 gamesC10 = strBytes "a7a" ∧
    decodeGames oracle2 gamesC10 ≠ decodeCore oracle2 gamesC10 := by
  refine ⟨⟨?_, ?_⟩, by decide, by decide, by decide⟩
  · cases games with
    | nil => simp [decode] at hok
    | cons g rest =>
      simp only [decode, List.isEmpty_cons, Bool.false_eq_true, if_false] at hok
      injection hok with h
      rw [← h]
      rfl
  · simp only [applyStage1]
    rw [if_pos ⟨hlen, hprint⟩]

set_option maxRecDepth 100000 in
theorem claim_C10_character_fixes_witness :
    strBytes "a?a" = applyStage2 (extractMeta gamesC10)
        (applyStage1 (extractMeta gamesC10) (decodeCore oracle2 gamesC10)) ∧
      applyStage1 (extractMeta gamesC10) (decodeCore oracle2 gamesC10) =
        (if (fixPass (decide ((extractMeta gamesC10).encodingVersion ≠ some "1.3"))
              (decodeCore oracle2 gamesC10)).2 = true then
           (fixPass (decide ((extractMeta gamesC10).encodingVersion ≠ some "1.3"))
             (decodeCore oracle2 gamesC10)).1
         else decodeCore oracle2 gamesC10) :=
  (claim_C10_character_fixes oracle2 gamesC10 (strBytes "a?a")
    (by decide) (by decide) (by decide)).1

set_option maxRecDepth 100000 in
/-- **C1 (evaluated at the failing input).**  For the one-byte payload
`[0x43]` ("C") over the mock oracle of the specification with a constant eight
legal actions, encoding and then decoding yields `[0x41]` ("A"): the final
two payload bits are re-read as a full-width three-bit code, shifting the
last bit out of the declared size, and the recomputed checksum differs from
the recorded one — the round-trip property fails on the code. -/
theorem claim_C1_roundtrip_failure :
    (encode oracle8 [67] 10).map (fun gs => decode oracle8 (gs.map DecSeg.parsed)) =
      some (.ok [65]) ∧
    ([65] : List Nat) ≠ [67] ∧
    calculateChecksum [65] ≠ calculateChecksum [67] := by
  refine ⟨by decide, by decide, by decide⟩

theorem claim_C6_error_iff_no_segments_witness :
    ∃ bs, decodeStr oracle2 (fun _ => none) "x" = .ok bs :=
  (claim_C6_error_iff_no_segments oracle2 (fun _ => none) "x").2 (by decide)
